import Mathlib

/-!
Verification of the separate-chaining hash table in `src/hash_table.py`.

The Python classes `Contact`, `Node` and `HashTable` are embedded as Lean
structures.  A bucket slot (`None` or the head `Node` of a singly linked
chain in Python) is represented as a `List Node`, with `[]` standing for the
empty slot: the Python code never produces a non-`None` chain of zero nodes,
so the representation is one-to-one.  The constructor, which raises
`ValueError` for `size <= 0`, becomes a function into `Except String`.
`print_table`, which writes one line per bucket to standard output, is
modelled as the list of lines it prints.
-/

/-- `Contact` from the source: a name and a phone number. -/
structure Contact where
  name : String
  number : String
deriving DecidableEq, Repr

/-- `Node` from the source: one chain entry, holding a key and a `Contact`.
The `next` pointer of the Python node is represented by the tail of the
enclosing `List Node`. -/
structure Node where
  key : String
  value : Contact
deriving DecidableEq, Repr

/-- `HashTable` from the source: a size and the bucket array `data`
(`[None] * size` at construction); each slot is a chain of nodes. -/
structure HashTable where
  size : Nat
  data : List (List Node)
deriving DecidableEq, Repr

/-- `HashTable.__init__`: raises `ValueError("HashTable size must be > 0")`
when `size <= 0`, otherwise builds the table with `size` empty slots. -/
def HashTable.init (size : Int) : Except String HashTable :=
  if size ≤ 0 then Except.error "HashTable size must be > 0"
  else Except.ok { size := size.toNat, data := List.replicate size.toNat [] }

/-- `HashTable.hash_function`: sums `ord(ch)` over the characters of `key`,
then reduces modulo `self.size`. -/
def HashTable.hash_function (h : HashTable) (key : String) : Nat :=
  (key.data.foldl (fun total ch => total + ch.toNat) 0) % h.size

/-- The chain-walking part of `HashTable.insert`: update the value in place
when the key is found, otherwise append a new node at the end.  On an update
the Python code assigns `current.value.number = number`, keeping the record
and its `name` field; on a miss it builds `Node(key, Contact(key, number))`. -/
def insertChain (key number : String) : List Node → List Node
  | [] => [⟨key, ⟨key, number⟩⟩]
  | n :: rest =>
      if n.key = key then ⟨n.key, ⟨n.value.name, number⟩⟩ :: rest
      else n :: insertChain key number rest

/-- `HashTable.insert`: computes the bucket index and rewrites that single
slot with the updated chain.  An empty slot receives the one-node chain,
exactly as the `head is None` branch of the source does. -/
def HashTable.insert (h : HashTable) (key number : String) : HashTable :=
  let index := h.hash_function key
  { h with data := h.data.set index (insertChain key number (h.data.getD index [])) }

/-- The chain-walking part of `HashTable.search`: first node whose key
matches, else `none`. -/
def searchChain (key : String) : List Node → Option Contact
  | [] => none
  | n :: rest => if n.key = key then some n.value else searchChain key rest

/-- `HashTable.search`: walk the chain of the bucket the key hashes to;
return the stored `Contact` or `None`. -/
def HashTable.search (h : HashTable) (key : String) : Option Contact :=
  searchChain key (h.data.getD (h.hash_function key) [])

/-- `Contact.__str__`: `f"{self.name}: {self.number}"`. -/
def Contact.toStr (c : Contact) : String :=
  c.name ++ ": " ++ c.number

/-- The inner `while` of `print_table`: the ` - <contact>` segments appended
to the line for one bucket, in chain order. -/
def chainStr : List Node → String
  | [] => ""
  | n :: rest => " - " ++ n.value.toStr ++ chainStr rest

/-- One line of `print_table`: `Index {i}: Empty` for an empty slot, else
`Index {i}:` followed by the chain segments. -/
def bucketLine (i : Nat) : List Node → String
  | [] => "Index " ++ toString i ++ ": Empty"
  | n :: rest => "Index " ++ toString i ++ ":" ++ chainStr (n :: rest)

/-- `HashTable.print_table`, modelled as the list of lines it prints, one
per bucket index `0, …, size - 1` in increasing order. -/
def HashTable.print_table (h : HashTable) : List String :=
  (List.range h.size).map (fun i => bucketLine i (h.data.getD i []))

/-- Folding a list of `(key, value)` pairs through `insert`, left to right. -/
def insertAll (h : HashTable) (ps : List (String × String)) : HashTable :=
  ps.foldl (fun t p => t.insert p.1 p.2) h

/-- The value most recently inserted for `k` in the pair sequence `ps`,
if any. -/
def lastVal (k : String) (ps : List (String × String)) : Option String :=
  ps.foldl (fun acc p => if p.1 = k then some p.2 else acc) none

/-- The hash index exactly as §4.1 of the specification words it: the sum of
the numeric code point values of the characters, reduced modulo capacity. -/
def specHashIndex (h : HashTable) (key : String) : Nat :=
  ((key.data.map Char.toNat).sum) % h.size

/-- Concatenation of record renderings, one `<key>: <value>` segment per
record, in order. -/
def recordsStr : List (String × String) → String
  | [] => ""
  | p :: rest => " - " ++ (p.1 ++ ": " ++ p.2) ++ recordsStr rest

/-- The per-bucket line with the records rendered from `(key, value)` pairs,
as the specification describes the dump, carrying the code's `Index {i}:`
framing so the two renderings can be compared. -/
def specLine (i : Nat) (records : List (String × String)) : String :=
  if records.isEmpty then "Index " ++ toString i ++ ": Empty"
  else "Index " ++ toString i ++ ":" ++ recordsStr records

/-- The `search` loop with the table state threaded through explicitly, to
express that the walk only reads the state. -/
def searchLoop (t : HashTable) (key : String) : List Node → Option Contact × HashTable
  | [] => (none, t)
  | n :: rest => if n.key = key then (some n.value, t) else searchLoop t key rest

/-- `HashTable.search` in state-passing form: the result together with the
table state after the call. -/
def HashTable.searchSt (h : HashTable) (key : String) : Option Contact × HashTable :=
  searchLoop h key (h.data.getD (h.hash_function key) [])

/-- Fuel-counted version of the `search` chain walk; `none` means the step
budget ran out before the loop finished. -/
def searchChainFuel : Nat → String → List Node → Option (Option Contact)
  | 0, _, _ => none
  | _ + 1, _, [] => some none
  | fuel + 1, key, n :: rest =>
      if n.key = key then some (some n.value) else searchChainFuel fuel key rest

/-- Fuel-counted version of the `insert` chain walk. -/
def insertChainFuel : Nat → String → String → List Node → Option (List Node)
  | 0, _, _, _ => none
  | _ + 1, key, number, [] => some [⟨key, ⟨key, number⟩⟩]
  | fuel + 1, key, number, n :: rest =>
      if n.key = key then some (⟨n.key, ⟨n.value.name, number⟩⟩ :: rest)
      else (insertChainFuel fuel key number rest).map (n :: ·)

/-- Fuel-counted version of the `print_table` inner loop over one chain. -/
def chainStrFuel : Nat → List Node → Option String
  | 0, _ => none
  | _ + 1, [] => some ""
  | fuel + 1, n :: rest => (chainStrFuel fuel rest).map (fun s => " - " ++ n.value.toStr ++ s)

/-- Well-formedness invariant of a table: positive size, the bucket array
has exactly `size` slots, per-bucket keys are distinct, every node sits in
the bucket its key hashes to, and each record's `name` equals its node's
key. -/
def HashTable.Inv (h : HashTable) : Prop :=
  0 < h.size ∧ h.data.length = h.size ∧
    ∀ i, i < h.data.length →
      (((h.data.getD i []).map Node.key).Nodup ∧
        ∀ n ∈ h.data.getD i [], h.hash_function n.key = i ∧ n.value.name = n.key)

/-- Tables reachable from a successful construction by a sequence of
inserts. -/
inductive Reachable : HashTable → Prop where
  | constructed (c : Int) (h : HashTable) : HashTable.init c = Except.ok h → Reachable h
  | insert (h : HashTable) (k v : String) : Reachable h → Reachable (h.insert k v)

/-! ## Chain-level lemmas -/

theorem foldl_add_toNat (l : List Char) (a : Nat) :
    l.foldl (fun total ch => total + ch.toNat) a = a + (l.map Char.toNat).sum := by
  induction l generalizing a with
  | nil => simp
  | cons c l ih => simp [List.foldl_cons, ih, Nat.add_assoc]

theorem map_key_insertChain_mem (k v : String) (ch : List Node)
    (hk : k ∈ ch.map Node.key) :
    (insertChain k v ch).map Node.key = ch.map Node.key := by
  induction ch with
  | nil => simp at hk
  | cons n rest ih =>
      by_cases hnk : n.key = k
      · simp [insertChain, hnk]
      · have hk2 : k ∈ rest.map Node.key := by
          rw [List.map_cons] at hk
          rcases List.mem_cons.mp hk with h1 | h1
          · exact absurd h1.symm hnk
          · exact h1
        simp [insertChain, hnk, ih hk2]

theorem map_key_insertChain_not_mem (k v : String) (ch : List Node)
    (hk : k ∉ ch.map Node.key) :
    (insertChain k v ch).map Node.key = ch.map Node.key ++ [k] := by
  induction ch with
  | nil => simp [insertChain]
  | cons n rest ih =>
      have hnk : ¬ n.key = k := fun e => hk (by rw [List.map_cons, e]; exact List.mem_cons_self k _)
      have hk2 : k ∉ rest.map Node.key := fun hm => hk (by rw [List.map_cons]; exact List.mem_cons_of_mem _ hm)
      simp [insertChain, hnk, ih hk2]

theorem searchChain_insertChain_self (k v : String) (ch : List Node)
    (hname : ∀ n ∈ ch, n.value.name = n.key) :
    searchChain k (insertChain k v ch) = some ⟨k, v⟩ := by
  induction ch with
  | nil => simp [insertChain, searchChain]
  | cons n rest ih =>
      by_cases hnk : n.key = k
      · have h1 : n.value.name = n.key := hname n (by simp)
        simp [insertChain, hnk, searchChain, h1]
      · exact (by
          simp [insertChain, hnk, searchChain,
            ih (fun m hm => hname m (by simp [hm]))])

theorem searchChain_insertChain_ne (k k2 v : String) (ch : List Node)
    (hne : k2 ≠ k) :
    searchChain k2 (insertChain k v ch) = searchChain k2 ch := by
  induction ch with
  | nil => simp [insertChain, searchChain, Ne.symm hne]
  | cons n rest ih =>
      by_cases hnk : n.key = k
      · have h2 : ¬ n.key = k2 := by rw [hnk]; exact Ne.symm hne
        simp [insertChain, hnk, searchChain, h2, Ne.symm hne]
      · by_cases h2 : n.key = k2
        · simp [insertChain, hnk, searchChain, h2, hne]
        · simp [insertChain, hnk, searchChain, h2, ih]

theorem name_insertChain (k v : String) (ch : List Node)
    (hname : ∀ n ∈ ch, n.value.name = n.key) :
    ∀ n ∈ insertChain k v ch, n.value.name = n.key := by
  induction ch with
  | nil =>
      intro n hn
      simp [insertChain] at hn
      subst hn
      rfl
  | cons m rest ih =>
      intro n hn
      by_cases hmk : m.key = k
      · simp [insertChain, hmk] at hn
        rcases hn with h1 | h1
        · subst h1
          show m.value.name = k
          rw [← hmk]
          exact hname m (List.mem_cons_self m rest)
        · exact hname n (by simp [h1])
      · simp [insertChain, hmk] at hn
        rcases hn with h1 | h1
        · subst h1
          exact hname n (by simp)
        · exact ih (fun x hx => hname x (by simp [hx])) n h1

theorem nodup_insertChain (k v : String) (ch : List Node)
    (hnd : (ch.map Node.key).Nodup) :
    ((insertChain k v ch).map Node.key).Nodup := by
  by_cases hk : k ∈ ch.map Node.key
  · rw [map_key_insertChain_mem k v ch hk]
    exact hnd
  · rw [map_key_insertChain_not_mem k v ch hk]
    simp [List.nodup_append, hnd, hk]

theorem mem_key_insertChain_self (k v : String) (ch : List Node) :
    k ∈ (insertChain k v ch).map Node.key := by
  by_cases hk : k ∈ ch.map Node.key
  · rw [map_key_insertChain_mem k v ch hk]
    exact hk
  · rw [map_key_insertChain_not_mem k v ch hk]
    simp

theorem mem_key_insertChain_mono (k k2 v : String) (ch : List Node)
    (hk : k2 ∈ ch.map Node.key) :
    k2 ∈ (insertChain k v ch).map Node.key := by
  by_cases hk1 : k ∈ ch.map Node.key
  · rw [map_key_insertChain_mem k v ch hk1]
    exact hk
  · rw [map_key_insertChain_not_mem k v ch hk1]
    simp [hk]

theorem mem_key_insertChain (k v : String) (ch : List Node) (n : Node)
    (hn : n ∈ insertChain k v ch) :
    n.key = k ∨ n.key ∈ ch.map Node.key := by
  have hmem : n.key ∈ (insertChain k v ch).map Node.key :=
    List.mem_map_of_mem Node.key hn
  by_cases hk : k ∈ ch.map Node.key
  · rw [map_key_insertChain_mem k v ch hk] at hmem
    exact Or.inr hmem
  · rw [map_key_insertChain_not_mem k v ch hk] at hmem
    rcases List.mem_append.mp hmem with h1 | h1
    · exact Or.inr h1
    · exact Or.inl (by simpa using h1)

theorem filter_key_eq_nil (k : String) (l : List Node)
    (hk : k ∉ l.map Node.key) :
    l.filter (fun n => n.key == k) = [] := by
  induction l with
  | nil => rfl
  | cons n rest ih =>
      have h1 : ¬ n.key = k := fun e => hk (by rw [List.map_cons, e]; exact List.mem_cons_self k _)
      have h2 : k ∉ rest.map Node.key := fun hm => hk (by rw [List.map_cons]; exact List.mem_cons_of_mem _ hm)
      simp [List.filter_cons, h1, ih h2]

theorem length_filter_key (k : String) (l : List Node)
    (hnd : (l.map Node.key).Nodup) (hk : k ∈ l.map Node.key) :
    (l.filter (fun n => n.key == k)).length = 1 := by
  induction l with
  | nil => simp at hk
  | cons n rest ih =>
      rw [List.map_cons, List.nodup_cons] at hnd
      obtain ⟨hn1, hn2⟩ := hnd
      by_cases h1 : n.key = k
      · have h2 : k ∉ rest.map Node.key := h1 ▸ hn1
        simp [List.filter_cons, h1, filter_key_eq_nil k rest h2]
      · have hk2 : k ∈ rest.map Node.key := by
          rw [List.map_cons] at hk
          rcases List.mem_cons.mp hk with e | e
          · exact absurd e.symm h1
          · exact e
        simp [List.filter_cons, h1, ih hn2 hk2]

/-! ## Table-level lemmas -/

theorem hash_function_insert (h : HashTable) (k v k2 : String) :
    (h.insert k v).hash_function k2 = h.hash_function k2 := rfl

theorem size_insert (h : HashTable) (k v : String) :
    (h.insert k v).size = h.size := rfl

theorem data_insert (h : HashTable) (k v : String) :
    (h.insert k v).data
      = h.data.set (h.hash_function k)
          (insertChain k v (h.data.getD (h.hash_function k) [])) := rfl

theorem length_data_insert (h : HashTable) (k v : String) :
    (h.insert k v).data.length = h.data.length := by
  rw [data_insert, List.length_set]

theorem hash_lt (h : HashTable) (hpos : 0 < h.size) (k : String) :
    h.hash_function k < h.size :=
  Nat.mod_lt _ hpos

theorem getD_set_self (l : List (List Node)) (i : Nat) (a : List Node)
    (hi : i < l.length) :
    (l.set i a).getD i [] = a := by
  simp [List.getD_eq_getElem?_getD, List.getElem?_set_self hi]

theorem getD_set_ne (l : List (List Node)) (i j : Nat) (a : List Node)
    (hij : j ≠ i) :
    (l.set i a).getD j [] = l.getD j [] := by
  simp [List.getD_eq_getElem?_getD, List.getElem?_set_ne (fun e => hij e.symm)]

theorem getD_out (l : List (List Node)) (j : Nat) (hj : l.length ≤ j) :
    l.getD j [] = [] := by
  rw [List.getD_eq_getElem?_getD, List.getElem?_eq_none hj]
  rfl

theorem getD_replicate_nil (n i : Nat) :
    (List.replicate n ([] : List Node)).getD i [] = [] := by
  rw [List.getD_eq_getElem?_getD, List.getElem?_replicate]
  split <;> rfl

theorem bucket_insert_self (h : HashTable) (k v : String)
    (hik : h.hash_function k < h.data.length) :
    (h.insert k v).data.getD (h.hash_function k) []
      = insertChain k v (h.data.getD (h.hash_function k) []) := by
  rw [data_insert]
  exact getD_set_self _ _ _ hik

theorem bucket_insert_ne (h : HashTable) (k v : String) (j : Nat)
    (hj : j ≠ h.hash_function k) :
    (h.insert k v).data.getD j [] = h.data.getD j [] := by
  rw [data_insert]
  exact getD_set_ne _ _ _ _ hj

/-! ## The invariant holds on every reachable table -/

theorem inv_init (c : Int) (h : HashTable)
    (hc : HashTable.init c = Except.ok h) : h.Inv := by
  unfold HashTable.init at hc
  by_cases h0 : c ≤ 0
  · simp [h0] at hc
  · simp [h0] at hc
    subst hc
    refine ⟨by simp; omega, by simp, ?_⟩
    intro i _
    rw [show ({ size := c.toNat, data := List.replicate c.toNat [] } : HashTable).data
          = List.replicate c.toNat [] from rfl, getD_replicate_nil]
    simp

theorem inv_insert (h : HashTable) (k v : String) (hInv : h.Inv) :
    (h.insert k v).Inv := by
  obtain ⟨hpos, hlen, hbuck⟩ := hInv
  have hik : h.hash_function k < h.data.length := by
    rw [hlen]
    exact hash_lt h hpos k
  refine ⟨hpos, by rw [length_data_insert, size_insert, hlen], ?_⟩
  intro i hi
  rw [length_data_insert] at hi
  by_cases hcase : i = h.hash_function k
  · subst hcase
    rw [bucket_insert_self h k v hik]
    obtain ⟨hnd, hmem⟩ := hbuck _ hik
    refine ⟨nodup_insertChain k v _ hnd, ?_⟩
    intro n hn
    constructor
    · rcases mem_key_insertChain k v _ n hn with e | e
      · rw [hash_function_insert, e]
      · obtain ⟨m, hm, hmk⟩ := List.mem_map.mp e
        rw [hash_function_insert, ← hmk]
        exact (hmem m hm).1
    · exact name_insertChain k v _ (fun x hx => (hmem x hx).2) n hn
  · rw [bucket_insert_ne h k v i hcase]
    obtain ⟨hnd, hmem⟩ := hbuck i hi
    exact ⟨hnd, fun n hn =>
      ⟨by rw [hash_function_insert]; exact (hmem n hn).1, (hmem n hn).2⟩⟩

theorem inv_reachable (h : HashTable) (hr : Reachable h) : h.Inv := by
  induction hr with
  | constructed c h hc => exact inv_init c h hc
  | insert h k v _ ih => exact inv_insert h k v ih

/-! ## Search after insert -/

theorem search_insert_self (h : HashTable) (k v : String) (hInv : h.Inv) :
    (h.insert k v).search k = some ⟨k, v⟩ := by
  obtain ⟨hpos, hlen, hbuck⟩ := hInv
  have hik : h.hash_function k < h.data.length := by
    rw [hlen]
    exact hash_lt h hpos k
  unfold HashTable.search
  rw [hash_function_insert, bucket_insert_self h k v hik]
  exact searchChain_insertChain_self k v _ (fun n hn => ((hbuck _ hik).2 n hn).2)

theorem search_insert_ne (h : HashTable) (k v k2 : String) (hInv : h.Inv)
    (hne : k2 ≠ k) :
    (h.insert k v).search k2 = h.search k2 := by
  obtain ⟨hpos, hlen, hbuck⟩ := hInv
  have hik : h.hash_function k < h.data.length := by
    rw [hlen]
    exact hash_lt h hpos k
  unfold HashTable.search
  rw [hash_function_insert]
  by_cases hcase : h.hash_function k2 = h.hash_function k
  · rw [hcase, bucket_insert_self h k v hik]
    exact searchChain_insertChain_ne k k2 v _ hne
  · rw [bucket_insert_ne h k v _ hcase]

theorem search_init (c : Int) (h : HashTable)
    (hc : HashTable.init c = Except.ok h) (k : String) :
    h.search k = none := by
  unfold HashTable.init at hc
  by_cases h0 : c ≤ 0
  · simp [h0] at hc
  · simp [h0] at hc
    subst hc
    unfold HashTable.search
    rw [show ({ size := c.toNat, data := List.replicate c.toNat [] } : HashTable).data
          = List.replicate c.toNat [] from rfl, getD_replicate_nil]
    rfl

/-! ## Sequences of inserts -/

theorem insertAll_cons (h : HashTable) (p : String × String)
    (ps : List (String × String)) :
    insertAll h (p :: ps) = insertAll (h.insert p.1 p.2) ps := rfl

theorem inv_insertAll (h : HashTable) (ps : List (String × String))
    (hInv : h.Inv) : (insertAll h ps).Inv := by
  induction ps generalizing h with
  | nil => exact hInv
  | cons p ps ih => exact ih _ (inv_insert h p.1 p.2 hInv)

theorem reachable_insertAll (h : HashTable) (ps : List (String × String))
    (hr : Reachable h) : Reachable (insertAll h ps) := by
  induction ps generalizing h with
  | nil => exact hr
  | cons p ps ih => exact ih _ (Reachable.insert h p.1 p.2 hr)

theorem foldl_lastVal (k : String) (ps : List (String × String)) (acc : Option String) :
    ps.foldl (fun a p => if p.1 = k then some p.2 else a) acc
      = (lastVal k ps).elim acc some := by
  induction ps generalizing acc with
  | nil => simp [lastVal]
  | cons p ps ih =>
      rw [List.foldl_cons, ih]
      have hcons : lastVal k (p :: ps)
          = (lastVal k ps).elim (if p.1 = k then some p.2 else none) some := by
        unfold lastVal
        rw [List.foldl_cons, ih]
        rfl
      rw [hcons]
      cases lastVal k ps with
      | none =>
          by_cases hp : p.1 = k <;> simp [hp]
      | some v => simp

theorem lastVal_cons (k : String) (p : String × String) (ps : List (String × String)) :
    lastVal k (p :: ps)
      = (lastVal k ps).elim (if p.1 = k then some p.2 else none) some := by
  unfold lastVal
  rw [List.foldl_cons, foldl_lastVal]
  rfl

theorem lastVal_not_mem (k : String) (ps : List (String × String))
    (hk : k ∉ ps.map Prod.fst) : lastVal k ps = none := by
  induction ps with
  | nil => rfl
  | cons p ps ih =>
      have h1 : ¬ p.1 = k := fun e => hk (by rw [List.map_cons, e]; exact List.mem_cons_self k _)
      have h2 : k ∉ ps.map Prod.fst := fun hm => hk (by rw [List.map_cons]; exact List.mem_cons_of_mem _ hm)
      rw [lastVal_cons, ih h2]
      simp [h1]

theorem lastVal_mem_nodup (k v : String) (ps : List (String × String))
    (hnd : (ps.map Prod.fst).Nodup) (hm : (k, v) ∈ ps) : lastVal k ps = some v := by
  induction ps with
  | nil => simp at hm
  | cons p ps ih =>
      rw [List.map_cons, List.nodup_cons] at hnd
      obtain ⟨hp1, hp2⟩ := hnd
      rcases List.mem_cons.mp hm with e | e
      · rw [lastVal_cons, lastVal_not_mem k ps (by rw [← e] at hp1; exact hp1)]
        rw [← e]
        simp
      · rw [lastVal_cons, ih hp2 e]
        simp

theorem search_insertAll (h : HashTable) (ps : List (String × String)) (k : String)
    (hInv : h.Inv) :
    (insertAll h ps).search k
      = (lastVal k ps).elim (h.search k) (fun v => some ⟨k, v⟩) := by
  induction ps generalizing h with
  | nil => simp [insertAll, lastVal]
  | cons p ps ih =>
      rw [insertAll_cons, ih _ (inv_insert h p.1 p.2 hInv), lastVal_cons]
      cases hl : lastVal k ps with
      | some v => simp
      | none =>
          by_cases hpk : p.1 = k
          · subst hpk
            simp [search_insert_self h p.1 p.2 hInv]
          · simp [hpk, search_insert_ne h p.1 p.2 k hInv (fun e => hpk e.symm)]

/-! ## Rendering lemmas for the dump -/

theorem searchLoop_eq (t : HashTable) (k : String) (ch : List Node) :
    searchLoop t k ch = (searchChain k ch, t) := by
  induction ch with
  | nil => rfl
  | cons n rest ih =>
      by_cases hk : n.key = k <;> simp [searchLoop, searchChain, hk, ih]

theorem chainStr_recordsStr (ch : List Node)
    (hname : ∀ n ∈ ch, n.value.name = n.key) :
    chainStr ch = recordsStr (ch.map (fun n => (n.key, n.value.number))) := by
  induction ch with
  | nil => rfl
  | cons n rest ih =>
      have h1 : n.value.name = n.key := hname n (List.mem_cons_self n rest)
      rw [chainStr, List.map_cons, recordsStr,
        ← ih (fun x hx => hname x (List.mem_cons_of_mem n hx)), Contact.toStr, h1]

theorem bucketLine_specLine (i : Nat) (ch : List Node)
    (hname : ∀ n ∈ ch, n.value.name = n.key) :
    bucketLine i ch = specLine i (ch.map (fun n => (n.key, n.value.number))) := by
  cases ch with
  | nil => rfl
  | cons n rest =>
      rw [bucketLine, chainStr_recordsStr (n :: rest) hname, List.map_cons, specLine]
      simp

/-! ## Fuel-bounded termination of the chain walks -/

theorem searchChainFuel_complete (k : String) (ch : List Node) (fuel : Nat)
    (hf : ch.length < fuel) :
    searchChainFuel fuel k ch = some (searchChain k ch) := by
  induction ch generalizing fuel with
  | nil =>
      cases fuel with
      | zero => omega
      | succ f => rfl
  | cons n rest ih =>
      cases fuel with
      | zero => omega
      | succ f =>
          have hf2 : rest.length < f := by
            rw [List.length_cons] at hf
            omega
          by_cases hk : n.key = k
          · simp [searchChainFuel, searchChain, hk]
          · simp [searchChainFuel, searchChain, hk, ih f hf2]

theorem insertChainFuel_complete (k v : String) (ch : List Node) (fuel : Nat)
    (hf : ch.length < fuel) :
    insertChainFuel fuel k v ch = some (insertChain k v ch) := by
  induction ch generalizing fuel with
  | nil =>
      cases fuel with
      | zero => omega
      | succ f => rfl
  | cons n rest ih =>
      cases fuel with
      | zero => omega
      | succ f =>
          have hf2 : rest.length < f := by
            rw [List.length_cons] at hf
            omega
          by_cases hk : n.key = k
          · simp [insertChainFuel, insertChain, hk]
          · simp [insertChainFuel, insertChain, hk, ih f hf2]

theorem chainStrFuel_complete (ch : List Node) (fuel : Nat)
    (hf : ch.length < fuel) :
    chainStrFuel fuel ch = some (chainStr ch) := by
  induction ch generalizing fuel with
  | nil =>
      cases fuel with
      | zero => omega
      | succ f => rfl
  | cons n rest ih =>
      cases fuel with
      | zero => omega
      | succ f =>
          have hf2 : rest.length < f := by
            rw [List.length_cons] at hf
            omega
          simp [chainStrFuel, chainStr, ih f hf2]

/-! ## A concrete constructed table, used to instantiate the theorems -/

/-- The table built by `HashTable(10)`, as in the demonstration driver. -/
def table10 : HashTable :=
  { size := 10, data := List.replicate 10 [] }

deriving instance DecidableEq for Except

theorem init_table10 : HashTable.init 10 = Except.ok table10 := by decide

theorem reachable_table10 : Reachable table10 :=
  Reachable.constructed 10 table10 init_table10

/-! ## Claim theorems -/

/-- Claim C1: inserting a non-empty sequence of pairs with distinct keys into
a constructed table and then searching each key returns the value inserted
for it, and searching a key never inserted returns `none` on any such table,
empty or not. -/
theorem claim_round_trip (c : Int) (t : HashTable)
    (ht : HashTable.init c = Except.ok t) (ps : List (String × String)) :
    (ps ≠ [] → (ps.map Prod.fst).Nodup →
        ∀ k v, (k, v) ∈ ps → (insertAll t ps).search k = some ⟨k, v⟩)
    ∧ (∀ k, k ∉ ps.map Prod.fst → (insertAll t ps).search k = none) := by
  have hInv := inv_init c t ht
  constructor
  · intro _ hnd k v hm
    rw [search_insertAll t ps k hInv, lastVal_mem_nodup k v ps hnd hm]
    rfl
  · intro k hk
    rw [search_insertAll t ps k hInv, lastVal_not_mem k ps hk]
    exact search_init c t ht k

/-- Claim C2: inserting the same key twice with different values leaves
exactly one record for that key, holding the second value; the bucket chain
keeps its length and its key order, and the key appears in no other
bucket. -/
theorem claim_update_in_place (h : HashTable) (hr : Reachable h)
    (k v1 v2 : String) (hv : v1 ≠ v2) :
    ((((h.insert k v1).insert k v2).data.getD (h.hash_function k) []).filter
        (fun n => n.key == k)).length = 1
    ∧ ((h.insert k v1).insert k v2).search k = some ⟨k, v2⟩
    ∧ (((h.insert k v1).insert k v2).data.getD (h.hash_function k) []).length
        = ((h.insert k v1).data.getD (h.hash_function k) []).length
    ∧ (((h.insert k v1).insert k v2).data.getD (h.hash_function k) []).map Node.key
        = ((h.insert k v1).data.getD (h.hash_function k) []).map Node.key
    ∧ ∀ j, j ≠ h.hash_function k →
        k ∉ (((h.insert k v1).insert k v2).data.getD j []).map Node.key := by
  have hInv := inv_reachable h hr
  have hInv1 := inv_insert h k v1 hInv
  have hInv2 := inv_insert _ k v2 hInv1
  have hpos := hInv.1
  have hlen := hInv.2.1
  obtain ⟨_, _, hbuck2⟩ := hInv2
  have hik : h.hash_function k < h.data.length := by
    rw [hlen]
    exact hash_lt h hpos k
  have hik1 : (h.insert k v1).hash_function k < (h.insert k v1).data.length := by
    rw [hash_function_insert, length_data_insert, hlen]
    exact hash_lt h hpos k
  have hi2 : h.hash_function k < ((h.insert k v1).insert k v2).data.length := by
    rw [length_data_insert, length_data_insert]
    exact hik
  have hb1 : (h.insert k v1).data.getD (h.hash_function k) []
      = insertChain k v1 (h.data.getD (h.hash_function k) []) :=
    bucket_insert_self h k v1 hik
  have hb2 : ((h.insert k v1).insert k v2).data.getD (h.hash_function k) []
      = insertChain k v2 ((h.insert k v1).data.getD (h.hash_function k) []) :=
    bucket_insert_self (h.insert k v1) k v2 hik1
  have hk1 : k ∈ ((h.insert k v1).data.getD (h.hash_function k) []).map Node.key := by
    rw [hb1]
    exact mem_key_insertChain_self k v1 _
  have hmap : (((h.insert k v1).insert k v2).data.getD (h.hash_function k) []).map Node.key
      = ((h.insert k v1).data.getD (h.hash_function k) []).map Node.key := by
    rw [hb2]
    exact map_key_insertChain_mem k v2 _ hk1
  refine ⟨?_, search_insert_self (h.insert k v1) k v2 hInv1, ?_, hmap, ?_⟩
  · exact length_filter_key k _ ((hbuck2 _ hi2).1) (by rw [hmap]; exact hk1)
  · have e := congrArg List.length hmap
    rwa [List.length_map, List.length_map] at e
  · intro j hj hmem
    by_cases hjl : j < ((h.insert k v1).insert k v2).data.length
    · obtain ⟨m, hm, hmk⟩ := List.mem_map.mp hmem
      have h5 := ((hbuck2 j hjl).2 m hm).1
      rw [hash_function_insert, hash_function_insert, hmk] at h5
      exact hj h5.symm
    · rw [getD_out _ _ (Nat.le_of_not_lt hjl)] at hmem
      simp at hmem

/-- Claim C3: construction fails with the `InvalidArgument` error exactly
when the capacity is non-positive, and any capacity of at least one yields a
table whose bucket slots are all empty. -/
theorem claim_construction (c : Int) :
    (c ≤ 0 → HashTable.init c = Except.error "HashTable size must be > 0")
    ∧ (0 < c → ∃ h, HashTable.init c = Except.ok h ∧ h.size = c.toNat
        ∧ 0 < h.size ∧ h.data.length = h.size ∧ ∀ ch ∈ h.data, ch = []) := by
  constructor
  · intro h0
    simp [HashTable.init, h0]
  · intro h0
    refine ⟨⟨c.toNat, List.replicate c.toNat []⟩, ?_, rfl, ?_, ?_, ?_⟩
    · unfold HashTable.init
      rw [if_neg (by omega)]
    · show 0 < c.toNat
      omega
    · show (List.replicate c.toNat ([] : List Node)).length = c.toNat
      exact List.length_replicate _ _
    · intro ch hch
      exact List.eq_of_mem_replicate hch

/-- Claim C4: the hash index is the sum of the code points of the key's
characters reduced modulo the capacity, and the empty string hashes to 0. -/
theorem claim_hash_spec (h : HashTable) (key : String) :
    h.hash_function key = specHashIndex h key ∧ h.hash_function "" = 0 := by
  constructor
  · unfold HashTable.hash_function specHashIndex
    rw [foldl_add_toNat, Nat.zero_add]
  · unfold HashTable.hash_function
    rw [show "".data = ([] : List Char) from rfl]
    simp

/-- Claim C5: two distinct keys with equal hash indices end up as two
distinct nodes in the same bucket chain, and search returns each key's own
value. -/
theorem claim_collision (h : HashTable) (hr : Reachable h) (k1 k2 v1 v2 : String)
    (hne : k1 ≠ k2) (hcol : h.hash_function k1 = h.hash_function k2) :
    (∃ n1 n2,
        n1 ∈ ((h.insert k1 v1).insert k2 v2).data.getD (h.hash_function k1) []
        ∧ n2 ∈ ((h.insert k1 v1).insert k2 v2).data.getD (h.hash_function k1) []
        ∧ n1.key = k1 ∧ n2.key = k2 ∧ n1 ≠ n2)
    ∧ ((h.insert k1 v1).insert k2 v2).search k1 = some ⟨k1, v1⟩
    ∧ ((h.insert k1 v1).insert k2 v2).search k2 = some ⟨k2, v2⟩ := by
  have hInv := inv_reachable h hr
  have hInv1 := inv_insert h k1 v1 hInv
  have hpos := hInv.1
  have hlen := hInv.2.1
  have hik1 : h.hash_function k1 < h.data.length := by
    rw [hlen]
    exact hash_lt h hpos k1
  have hik2 : (h.insert k1 v1).hash_function k2 < (h.insert k1 v1).data.length := by
    rw [hash_function_insert, length_data_insert, hlen]
    exact hash_lt h hpos k2
  have hb1 : (h.insert k1 v1).data.getD (h.hash_function k1) []
      = insertChain k1 v1 (h.data.getD (h.hash_function k1) []) :=
    bucket_insert_self h k1 v1 hik1
  have hb2 : ((h.insert k1 v1).insert k2 v2).data.getD (h.hash_function k1) []
      = insertChain k2 v2 ((h.insert k1 v1).data.getD (h.hash_function k1) []) := by
    have e := bucket_insert_self (h.insert k1 v1) k2 v2 hik2
    rw [hash_function_insert] at e
    rw [← hcol] at e
    exact e
  have hmem1 : k1 ∈ (((h.insert k1 v1).insert k2 v2).data.getD
      (h.hash_function k1) []).map Node.key := by
    rw [hb2]
    exact mem_key_insertChain_mono k2 k1 v2 _
      (by rw [hb1]; exact mem_key_insertChain_self k1 v1 _)
  have hmem2 : k2 ∈ (((h.insert k1 v1).insert k2 v2).data.getD
      (h.hash_function k1) []).map Node.key := by
    rw [hb2]
    exact mem_key_insertChain_self k2 v2 _
  obtain ⟨m1, hm1, hm1k⟩ := List.mem_map.mp hmem1
  obtain ⟨m2, hm2, hm2k⟩ := List.mem_map.mp hmem2
  refine ⟨⟨m1, m2, hm1, hm2, hm1k, hm2k, ?_⟩, ?_,
    search_insert_self (h.insert k1 v1) k2 v2 hInv1⟩
  · intro e
    apply hne
    rw [← hm1k, ← hm2k, e]
  · rw [search_insert_ne (h.insert k1 v1) k2 v2 k1 hInv1 hne]
    exact search_insert_self h k1 v1 hInv

/-- Claim C6: on every reachable table, the keys within one bucket chain are
pairwise distinct, every node sits in the bucket its key hashes to, and a
key present in the table determines its bucket uniquely. -/
theorem claim_invariants (h : HashTable) (hr : Reachable h) :
    (∀ i, i < h.data.length → ((h.data.getD i []).map Node.key).Nodup)
    ∧ (∀ i, i < h.data.length → ∀ n ∈ h.data.getD i [], h.hash_function n.key = i)
    ∧ (∀ i j, i < h.data.length → j < h.data.length → ∀ k,
        k ∈ (h.data.getD i []).map Node.key →
        k ∈ (h.data.getD j []).map Node.key → i = j) := by
  obtain ⟨hpos, hlen, hbuck⟩ := inv_reachable h hr
  refine ⟨fun i hi => (hbuck i hi).1, fun i hi n hn => ((hbuck i hi).2 n hn).1, ?_⟩
  intro i j hi hj k hki hkj
  obtain ⟨m1, hm1, hm1k⟩ := List.mem_map.mp hki
  obtain ⟨m2, hm2, hm2k⟩ := List.mem_map.mp hkj
  have e1 := ((hbuck i hi).2 m1 hm1).1
  have e2 := ((hbuck j hj).2 m2 hm2).1
  rw [hm1k] at e1
  rw [hm2k] at e2
  rw [← e1, ← e2]

/-- Counterexample to claim C7 as stated: the dump renders an empty bucket
as `Index 0: Empty`, not as the bare string `empty`, already on the table
constructed with capacity 1. -/
theorem claim_dump_counterexample :
    HashTable.init 1 = Except.ok ⟨1, [[]]⟩
    ∧ HashTable.print_table ⟨1, [[]]⟩ = ["Index 0: Empty"]
    ∧ HashTable.print_table ⟨1, [[]]⟩ ≠ ["empty"]
    ∧ ("Index 0: Empty" : String) ≠ "empty" :=
  ⟨by decide, by decide, by decide, by decide⟩

/-- Claim C7 (amended): `print_table` produces one line per bucket index
from 0 to capacity - 1 in increasing order; an empty bucket yields
`Index i: Empty`, a non-empty one yields `Index i:` followed by the chain's
records in order, each rendered from its key and value (the stored name
equals the key on every reachable table); the lines are a pure function of
the table state, modelled as the list of lines printed. -/
theorem claim_dump_amended (h : HashTable) (hr : Reachable h) :
    h.print_table
      = (List.range h.size).map
          (fun i => specLine i ((h.data.getD i []).map (fun n => (n.key, n.value.number))))
    ∧ h.print_table.length = h.size := by
  obtain ⟨hpos, hlen, hbuck⟩ := inv_reachable h hr
  constructor
  · unfold HashTable.print_table
    apply List.map_congr_left
    intro i hi
    have hi2 : i < h.data.length := by
      rw [hlen]
      exact List.mem_range.mp hi
    exact bucketLine_specLine i _ (fun n hn => ((hbuck i hi2).2 n hn).2)
  · unfold HashTable.print_table
    rw [List.length_map, List.length_range]

/-- Claim C8: `search` leaves the table state unchanged; in state-passing
form the state that comes back is the one that went in, and the result is
the pure `search` result. -/
theorem claim_search_pure (h : HashTable) (k : String) :
    (h.searchSt k).2 = h ∧ (h.searchSt k).1 = h.search k := by
  unfold HashTable.searchSt HashTable.search
  rw [searchLoop_eq]
  exact ⟨rfl, rfl⟩

/-- Claim C9: on a constructed table, the loops of `search`, `insert` and
the dump all finish within chain length + 1 steps (the fuel-counted walks
never exhaust their budget) and produce the operations' results. -/
theorem claim_total (h : HashTable) (hr : Reachable h) (k v : String) :
    searchChainFuel ((h.data.getD (h.hash_function k) []).length + 1) k
        (h.data.getD (h.hash_function k) []) = some (h.search k)
    ∧ insertChainFuel ((h.data.getD (h.hash_function k) []).length + 1) k v
        (h.data.getD (h.hash_function k) [])
        = some ((h.insert k v).data.getD (h.hash_function k) [])
    ∧ ∀ i, i < h.size →
        chainStrFuel ((h.data.getD i []).length + 1) (h.data.getD i [])
          = some (chainStr (h.data.getD i [])) := by
  obtain ⟨hpos, hlen, _⟩ := inv_reachable h hr
  have hik : h.hash_function k < h.data.length := by
    rw [hlen]
    exact hash_lt h hpos k
  refine ⟨?_, ?_, ?_⟩
  · rw [searchChainFuel_complete k _ _ (Nat.lt_succ_self _)]
    rfl
  · rw [insertChainFuel_complete k v _ _ (Nat.lt_succ_self _),
      bucket_insert_self h k v hik]
  · intro i _
    exact chainStrFuel_complete _ _ (Nat.lt_succ_self _)

/-- Claim C10: `insert` changes at most the bucket slot the key hashes to;
the capacity, the bucket count and every other slot are unchanged. -/
theorem claim_insert_frame (h : HashTable) (hr : Reachable h) (k v : String) :
    (h.insert k v).size = h.size
    ∧ (h.insert k v).data.length = h.data.length
    ∧ ∀ j, j ≠ h.hash_function k →
        (h.insert k v).data.getD j [] = h.data.getD j [] :=
  ⟨rfl, length_data_insert h k v, fun j hj => bucket_insert_ne h k v j hj⟩

/-! ## Witnesses instantiating the hypotheses of the claim theorems -/

theorem claim_round_trip_witness :
    (insertAll table10 [("John", "909-876-1234"), ("Amy", "111-222-3333")]).search "John"
      = some ⟨"John", "909-876-1234"⟩
    ∧ (insertAll table10 [("John", "909-876-1234"), ("Amy", "111-222-3333")]).search "Chris"
      = none :=
  ⟨(claim_round_trip 10 table10 init_table10
      [("John", "909-876-1234"), ("Amy", "111-222-3333")]).1 (by decide) (by decide)
      "John" "909-876-1234" (by decide),
   (claim_round_trip 10 table10 init_table10
      [("John", "909-876-1234"), ("Amy", "111-222-3333")]).2 "Chris" (by decide)⟩

theorem claim_update_in_place_witness :
    ("111-555-0002" : String) ≠ "999-444-9999"
    ∧ ((table10.insert "Rebecca" "111-555-0002").insert "Rebecca" "999-444-9999").search "Rebecca"
        = some ⟨"Rebecca", "999-444-9999"⟩ :=
  ⟨by decide,
   (claim_update_in_place table10 reachable_table10 "Rebecca" "111-555-0002"
      "999-444-9999" (by decide)).2.1⟩

theorem claim_construction_witness :
    HashTable.init (-3) = Except.error "HashTable size must be > 0"
    ∧ ∃ h, HashTable.init 10 = Except.ok h ∧ h.size = (10 : Int).toNat
        ∧ 0 < h.size ∧ h.data.length = h.size ∧ ∀ ch ∈ h.data, ch = [] :=
  ⟨(claim_construction (-3)).1 (by decide), (claim_construction 10).2 (by decide)⟩

theorem claim_collision_witness :
    ("Amy" : String) ≠ "May"
    ∧ table10.hash_function "Amy" = table10.hash_function "May"
    ∧ ((table10.insert "Amy" "111-222-3333").insert "May" "222-333-1111").search "Amy"
        = some ⟨"Amy", "111-222-3333"⟩
    ∧ ((table10.insert "Amy" "111-222-3333").insert "May" "222-333-1111").search "May"
        = some ⟨"May", "222-333-1111"⟩ := by
  have hmain := claim_collision table10 reachable_table10 "Amy" "May"
    "111-222-3333" "222-333-1111" (by decide) (by decide)
  exact ⟨by decide, by decide, hmain.2.1, hmain.2.2⟩

theorem claim_invariants_witness :
    ((((table10.insert "Amy" "111-222-3333").insert "May" "222-333-1111").data.getD 5 []).map
        Node.key).Nodup :=
  (claim_invariants _ (Reachable.insert _ "May" "222-333-1111"
      (Reachable.insert _ "Amy" "111-222-3333" reachable_table10))).1 5 (by decide)

theorem claim_dump_amended_witness :
    ((table10.insert "Amy" "111-222-3333").insert "May" "222-333-1111").print_table.length
      = ((table10.insert "Amy" "111-222-3333").insert "May" "222-333-1111").size :=
  (claim_dump_amended _ (Reachable.insert _ "May" "222-333-1111"
      (Reachable.insert _ "Amy" "111-222-3333" reachable_table10))).2

theorem claim_total_witness :
    searchChainFuel ((table10.data.getD (table10.hash_function "Amy") []).length + 1) "Amy"
        (table10.data.getD (table10.hash_function "Amy") [])
      = some (table10.search "Amy") :=
  (claim_total table10 reachable_table10 "Amy" "111-222-3333").1

theorem claim_insert_frame_witness :
    (table10.insert "Amy" "111-222-3333").size = table10.size
    ∧ (table10.insert "Amy" "111-222-3333").data.getD 0 [] = table10.data.getD 0 [] :=
  ⟨(claim_insert_frame table10 reachable_table10 "Amy" "111-222-3333").1,
   (claim_insert_frame table10 reachable_table10 "Amy" "111-222-3333").2.2 0 (by decide)⟩
